import Mathlib

/-!
# gocipe/routing: static-content resolution and the WebSocket tunnel

A shallow embedding of `utils.go` (`lookupContent` and the three file-serving
handlers) and `ws.go` (`WebSocketReverseProxy.ServeHTTP`, `IsWebSocket`).

Conventions.

* A Go `string` is a sequence of bytes; it is modelled as `List Nat`
  (`GoString`), each element a byte value.  `str` turns an ASCII literal into
  such a sequence.
* `path.Clean` and `strings.ToLower` belong to the Go standard library; they
  are transcribed here from the library's algorithm.
* `http.FileSystem`, `http.File` and `os.FileInfo` are interfaces; they are
  modelled by the observations the code makes of them (`Open`, `Stat`,
  `IsDir`, `Name`, `ModTime`).
* Effects on the response writer and on the filesystem are recorded as a list
  of events, in program order.
* `lookupContent` is recursive without a decreasing measure; its model takes
  a bound on the recursion depth and reports `none` when the bound is hit.
-/

namespace Routing

/-! ## Strings -/

/-- A Go string: its bytes. -/
abbrev GoString := List Nat

/-- The bytes of an ASCII literal. -/
def str (s : String) : GoString := s.toList.map Char.toNat

/-- The byte `'/'`. -/
abbrev slash : Nat := 47

/-- The byte `'.'`. -/
abbrev dot : Nat := 46

/-- `strings.HasPrefix(s, "/")`. -/
def hasPrefixSlash : GoString → Bool
  | c :: _ => c == slash
  | [] => false

/-! ## `path.Clean`

The library keeps a `lazybuf` with a write index `w`; only `buf[0..w)` is the
output.  Here the written prefix is kept as a list in reverse order (`out`,
most recent byte first), so `out.length` is `w` and `append` is a cons.  The
read index `r` is represented by the unread suffix of the path. -/

/-- The inner loop of the `..` case, after the first `out.w--`:
`for out.w > dotdot && out.index(out.w) != '/' { out.w-- }`.
`last` is the byte at index `w` (the one just dropped), `out` is `buf[0..w)`
reversed. -/
def backtrackLoop (dotdot : Nat) : Nat → List Nat → List Nat
  | _, [] => []
  | last, c :: out =>
    if (c :: out).length > dotdot ∧ last ≠ slash then backtrackLoop dotdot c out
    else c :: out

/-- The `can backtrack` arm: `out.w--` followed by the inner loop. -/
def backtrack (dotdot : Nat) : List Nat → List Nat
  | [] => []
  | last :: out => backtrackLoop dotdot last out

/-- The main loop `for r < n { switch ... }` of `path.Clean`.  `path` is the
unread input `path[r..n)`, `out` the reversed output, `dotdot` the index
where `..` must stop.  Every iteration reads at least one byte, so a bound
equal to the length of the input is never reached. -/
def cleanLoop (rooted : Bool) : Nat → List Nat → List Nat → Nat → List Nat
  | 0, _, out, _ => out
  | _ + 1, [], out, _ => out
  | fuel + 1, c :: rest, out, dotdot =>
    if c = slash then
      -- empty path element
      cleanLoop rooted fuel rest out dotdot
    else if c = dot ∧ (rest = [] ∨ rest.head? = some slash) then
      -- . element
      cleanLoop rooted fuel rest out dotdot
    else if c = dot ∧ rest.head? = some dot ∧
        (rest.tail = [] ∨ rest.tail.head? = some slash) then
      -- .. element: remove to last /
      if out.length > dotdot then
        cleanLoop rooted fuel rest.tail (backtrack dotdot out) dotdot
      else if !rooted then
        let out1 := if out.length > 0 then slash :: out else out
        let out2 := dot :: dot :: out1
        cleanLoop rooted fuel rest.tail out2 out2.length
      else
        cleanLoop rooted fuel rest.tail out dotdot
    else
      -- real path element: add slash if needed, then copy the element
      let out1 :=
        if (rooted ∧ out.length ≠ 1) ∨ (¬ rooted ∧ out.length ≠ 0) then slash :: out
        else out
      let elem := (c :: rest).takeWhile (· ≠ slash)
      cleanLoop rooted fuel ((c :: rest).dropWhile (· ≠ slash)) (elem.reverse ++ out1) dotdot

/-- Go's `path.Clean`. -/
def Clean (path : GoString) : GoString :=
  match path with
  | [] => [dot]
  | c :: rest =>
    let rooted : Bool := c == slash
    let out :=
      if rooted then cleanLoop true path.length rest [slash] 1
      else cleanLoop false path.length path [] 0
    if out.length = 0 then [dot] else out.reverse

/-- Lines 19-23 of `lookupContent`: prefix `/` if absent, then `path.Clean`. -/
def normalize (upath : GoString) : GoString :=
  Clean (if hasPrefixSlash upath then upath else slash :: upath)

/-! ## The filesystem interfaces -/

/-- The observations made of an `os.FileInfo`. -/
structure FileInfo where
  Name : GoString
  IsDir : Bool
  ModTime : Nat
deriving DecidableEq, Repr

/-- An `io.ReadSeeker`, identified by a number. -/
abbrev ReadSeeker := Nat

/-- An `http.File`: the stream it reads, and what `Stat()` answers (`none`
when `Stat()` returns an error). -/
structure File where
  content : ReadSeeker
  Stat : Option FileInfo
deriving DecidableEq, Repr

/-- An `http.FileSystem`: `Open(name)` answers a file, or `none` for an error. -/
structure FileSystem where
  Open : GoString → Option File

/-- The request: `r.URL.Path` and `r.Header`. -/
structure Request where
  Path : GoString
  Header : GoString → List GoString

/-- What `lookupContent` returns: `(file, info, true)` or `(nil, nil, false)`. -/
inductive Lookup where
  | found (file : File) (info : FileInfo)
  | notFound
deriving DecidableEq, Repr

/-! ## `lookupContent` (utils.go, lines 12-39) -/

/-- The function `lookupContent`.  The first component is the returned value,
`none` when the recursion is deeper than `fuel`; the second is the list of
paths passed to `root.Open`, in order. -/
def lookupContent (root : FileSystem) : Nat → GoString → Option Lookup × List GoString
  | 0, _ => (none, [])
  | fuel + 1, upath =>
    let upath := normalize upath
    match root.Open upath with
    | none => (some Lookup.notFound, [upath])
    | some file =>
      match file.Stat with
      | none => (some Lookup.notFound, [upath])
      | some info =>
        if info.IsDir then
          let upath1 := upath ++ str "/index.html"
          let rec1 := lookupContent root fuel (upath1 ++ str "/index.html")
          (rec1.1, upath :: rec1.2)
        else
          (some (Lookup.found file info), [upath])

/-! ## The handlers of utils.go -/

/-- What a handler does, as seen from outside. -/
inductive Event where
  /-- The call `root.Open(path)`. -/
  | fsOpen (path : GoString)
  /-- The call `w.Header().Set(key, value)`. -/
  | setHeader (key value : GoString)
  /-- The call `w.WriteHeader(code)`. -/
  | writeHeader (code : Nat)
  /-- The call `w.Write(body)`. -/
  | write (body : GoString)
  /-- The call `http.ServeContent(w, r, name, modtime, content)`. -/
  | serveContent (name : GoString) (modtime : Nat) (content : ReadSeeker)
  /-- The call `f.handler.ServeHTTP(w, r)` on the injected handler. -/
  | delegate (r : Request)

/-- The type `fileHandlerWithFallback`. -/
structure fileHandlerWithFallback where
  root : FileSystem
  fallback : File

/-- The method `fileHandlerWithFallback.ServeHTTP` (lines 51-76): the events
it produces, `none` when `lookupContent` does not return within `fuel`. -/
def fileHandlerWithFallback.ServeHTTP (f : fileHandlerWithFallback) (fuel : Nat)
    (r : Request) : Option (List Event) :=
  match lookupContent f.root fuel r.Path with
  | (none, _) => none
  | (some (Lookup.found file info), opens) =>
    some (opens.map Event.fsOpen ++ [Event.serveContent info.Name info.ModTime file.content])
  | (some Lookup.notFound, opens) =>
    let file := f.fallback
    match file.Stat with
    | some info =>
      some (opens.map Event.fsOpen ++ [Event.serveContent info.Name info.ModTime file.content])
    | none =>
      some (opens.map Event.fsOpen ++
        [Event.setHeader (str "Content-Type") (str "text/plain; charset=utf-8"),
         Event.setHeader (str "X-Content-Type-Options") (str "nosniff"),
         Event.writeHeader 500,
         Event.write (str "File not found and default could not be served.")])

/-- The type `fileHandlerWithFallbackContent`. -/
structure fileHandlerWithFallbackContent where
  root : FileSystem
  fallback : ReadSeeker
  filename : GoString
  contentType : GoString
  modtime : Nat

/-- The method `fileHandlerWithFallbackContent.ServeHTTP` (lines 91-94). -/
def fileHandlerWithFallbackContent.ServeHTTP (f : fileHandlerWithFallbackContent)
    (_r : Request) : List Event :=
  [Event.setHeader (str "Content-Type") f.contentType,
   Event.serveContent f.filename f.modtime f.fallback]

/-- The type `fileHandlerWithNotFoundHandler`; the injected handler is seen
only through the event `delegate`. -/
structure fileHandlerWithNotFoundHandler where
  root : FileSystem

/-- The method `fileHandlerWithNotFoundHandler.ServeHTTP` (lines 106-116). -/
def fileHandlerWithNotFoundHandler.ServeHTTP (f : fileHandlerWithNotFoundHandler)
    (fuel : Nat) (r : Request) : Option (List Event) :=
  if r.Path = str "index.html" then
    some [Event.delegate r]
  else
    match lookupContent f.root fuel r.Path with
    | (none, _) => none
    | (some (Lookup.found file info), opens) =>
      some (opens.map Event.fsOpen ++ [Event.serveContent info.Name info.ModTime file.content])
    | (some Lookup.notFound, opens) =>
      some (opens.map Event.fsOpen ++ [Event.delegate r])

/-! ## `IsWebSocket` (ws.go, lines 68-85) -/

/-- Whether every byte is below `utf8.RuneSelf`. -/
def isASCII (s : GoString) : Bool := s.all (· < 128)

/-- The ASCII arm of `strings.ToLower`: `'A'..'Z'` move by `'a' - 'A'`. -/
def lowerByte (c : Nat) : Nat := if 65 ≤ c ∧ c ≤ 90 then c + 32 else c

/-- Go's `strings.ToLower`.  An ASCII-only string is lowered byte by byte;
any other string goes through `Map(unicode.ToLower, s)`, which depends on the
Unicode tables and is the parameter `unicodeMap`. -/
def ToLower (unicodeMap : GoString → GoString) (s : GoString) : GoString :=
  if isASCII s then s.map lowerByte else unicodeMap s

/-- The function `IsWebSocket`. -/
def IsWebSocket (unicodeMap : GoString → GoString) (r : Request) : Bool :=
  let connHdrs := r.Header (str "Connection")
  let connHdr := match connHdrs with
    | h :: _ => h
    | [] => str ""
  if ToLower unicodeMap connHdr = str "upgrade" then
    let upgradeHdrs := r.Header (str "Upgrade")
    match upgradeHdrs with
    | h :: _ => decide (ToLower unicodeMap h = str "websocket")
    | [] => false
  else
    false

/-! ## `WebSocketReverseProxy.ServeHTTP` (ws.go, lines 26-66) -/

/-- A Go `error` value: `none` is `nil`. -/
abbrev GoError := Option GoString

/-- How one `io.Copy` of the relay stands: still copying, or returned with
the given error (`nil` on a clean end of stream). -/
inductive CopyState where
  | running
  | returned (err : GoError)
deriving DecidableEq, Repr

/-- What the surroundings answer to the calls `ServeHTTP` makes. -/
structure TunnelEnv where
  /-- The error of `net.Dial("tcp", ws.Target)`. -/
  dialErr : GoError
  /-- Whether `w` implements `http.Hijacker`. -/
  isHijacker : Bool
  /-- The error of `hj.Hijack()`. -/
  hijackErr : GoError
  /-- The error of `r.Write(d)`. -/
  writeErr : GoError
  /-- The copy `io.Copy(d, nc)`, client to backend. -/
  copyUp : CopyState
  /-- The copy `io.Copy(nc, d)`, backend to client. -/
  copyDown : CopyState

/-- The steps of the tunnel handler. -/
inductive TunnelEvent where
  /-- The call `net.Dial`, with its error. -/
  | dial (err : GoError)
  | httpError (body : GoString) (code : Nat)
  | logPrintf (format : GoString)
  /-- The call `hj.Hijack()`, with its error. -/
  | hijack (err : GoError)
  /-- The call `r.Write(d)`, with its error. -/
  | writeRequest (err : GoError)
  | go (dst src : GoString)
  | receive (err : GoString)
  | closeBackend
  | closeClient
deriving DecidableEq, Repr

/-- The closure `cp`, given what its `io.Copy` did: the values it sends on
`errc`. -/
def cp (copy : CopyState) : List GoString :=
  match copy with
  | CopyState.running => []
  | CopyState.returned none => []
  | CopyState.returned (some err) => [err]

/-- One run of the handler: the steps taken and whether the call returned. -/
structure TunnelRun where
  events : List TunnelEvent
  returned : Bool
deriving DecidableEq, Repr

/-- The method `WebSocketReverseProxy.ServeHTTP`.  The deferred calls run in
reverse order of registration (`d.Close()` first, then `nc.Close()`) when the
function returns.  The receive `<-errc` completes when one of the two relay
tasks has sent a value; otherwise the handler stays blocked. -/
def WebSocketReverseProxy.ServeHTTP (env : TunnelEnv) : TunnelRun :=
  match env.dialErr with
  | some e =>
    { events := [TunnelEvent.dial (some e),
        TunnelEvent.httpError (str "Error contacting backend server.") 502,
        TunnelEvent.logPrintf (str "Error dialing websocket backend %s: %s")],
      returned := true }
  | none =>
    if !env.isHijacker then
      { events := [TunnelEvent.dial none, TunnelEvent.httpError (str "Not a hijacker?") 500],
        returned := true }
    else
      match env.hijackErr with
      | some e =>
        { events := [TunnelEvent.dial none, TunnelEvent.hijack (some e),
            TunnelEvent.logPrintf (str "Hijack error: %v")],
          returned := true }
      | none =>
        let deferred := [TunnelEvent.closeBackend, TunnelEvent.closeClient]
        match env.writeErr with
        | some e =>
          { events := [TunnelEvent.dial none, TunnelEvent.hijack none,
              TunnelEvent.writeRequest (some e),
              TunnelEvent.logPrintf (str "Error copying request to target: %v")] ++ deferred,
            returned := true }
        | none =>
          let started := [TunnelEvent.dial none, TunnelEvent.hijack none,
            TunnelEvent.writeRequest none,
            TunnelEvent.go (str "d") (str "nc"), TunnelEvent.go (str "nc") (str "d")]
          match cp env.copyUp ++ cp env.copyDown with
          | [] => { events := started, returned := false }
          | err :: _ => { events := started ++ [TunnelEvent.receive err] ++ deferred,
                          returned := true }

/-- The backend connection was opened and is not closed at the end of the run. -/
def backendLeftOpen (run : TunnelRun) : Bool :=
  decide (TunnelEvent.dial none ∈ run.events) &&
    !decide (TunnelEvent.closeBackend ∈ run.events)

/-- The client connection was taken over and is not closed at the end of the run. -/
def clientLeftOpen (run : TunnelRun) : Bool :=
  decide (TunnelEvent.hijack none ∈ run.events) &&
    !decide (TunnelEvent.closeClient ∈ run.events)

/-! ## Example filesystems -/

/-- A directory entry. -/
def dirFile (n : Nat) (name : GoString) : File :=
  { content := n, Stat := some { Name := name, IsDir := true, ModTime := 0 } }

/-- A regular file. -/
def regFile (n : Nat) (name : GoString) : File :=
  { content := n, Stat := some { Name := name, IsDir := false, ModTime := 7 } }

/-- A filesystem with the directory `/docs` and the regular file
`/docs/index.html`; every other path fails to open. -/
def docsFS : FileSystem :=
  { Open := fun p =>
      if p = str "/docs" then some (dirFile 1 (str "docs"))
      else if p = str "/docs/index.html" then some (regFile 2 (str "index.html"))
      else none }

/-- A filesystem in which every path opens as a directory. -/
def everyDirFS : FileSystem :=
  { Open := fun _ => some (dirFile 0 (str "d")) }

/-! ## Segments of a path -/

/-- Go's `strings.Split(p, "/")`: the segments between the slashes. -/
def splitSlash : GoString → List GoString
  | [] => [[]]
  | c :: rest =>
    if c = slash then [] :: splitSlash rest
    else
      match splitSlash rest with
      | s :: ss => (c :: s) :: ss
      | [] => [[c]]

/-- Go's `strings.Join(segs, "/")`. -/
def joinSlash : List GoString → GoString
  | [] => []
  | [s] => s
  | s :: ss => s ++ slash :: joinSlash ss

/-- Every segment preceded by a slash: `/s1/s2/.../sn`. -/
def joinSegs : List GoString → GoString
  | [] => []
  | s :: ss => slash :: s ++ joinSegs ss

/-- The rooted path with the given segments; `/` when there is none. -/
def rootedPath : List GoString → GoString
  | [] => [slash]
  | s :: ss => joinSegs (s :: ss)

/-- A proper path element: not empty, no slash inside, neither `.` nor `..`. -/
def GoodSeg (s : GoString) : Prop :=
  s ≠ [] ∧ slash ∉ s ∧ s ≠ [dot] ∧ s ≠ [dot, dot]

/-- What one iteration group of the rooted loop does to the reversed output
when it reads the segment `s`. -/
def act (o : List Nat) (s : GoString) : List Nat :=
  if s = [] ∨ s = [dot] then o
  else if s = [dot, dot] then (if o.length > 1 then backtrack 1 o else o)
  else s.reverse ++ (if o.length ≠ 1 then slash :: o else o)

/-- The same on the list of segments written so far. -/
def actSegs (segs : List GoString) (s : GoString) : List GoString :=
  if s = [] ∨ s = [dot] then segs
  else if s = [dot, dot] then segs.dropLast
  else segs ++ [s]

/-! ## Definitions used by the statements -/

/-- The segments that `path.Clean` keeps of the rooted path `/x`. -/
def cleanSegs (x : GoString) : List GoString := (splitSlash x).foldl actSegs []

/-- A path is clean and rooted when it is `/` or `/s1/.../sn` with proper
elements `si`. -/
def CleanRooted (p : GoString) : Prop :=
  ∃ segs : List GoString, (∀ s ∈ segs, GoodSeg s) ∧ p = rootedPath segs

/-- Whether `p` opens and stats as a directory. -/
def opensAsDir (root : FileSystem) (p : GoString) : Bool :=
  match root.Open p with
  | none => false
  | some file =>
    match file.Stat with
    | none => false
    | some info => info.IsDir

/-- The argument of the recursive call, for the normalized path `p`. -/
def indexPath (p : GoString) : GoString := (p ++ str "/index.html") ++ str "/index.html"

/-- Whether the event is one of the two actions of a handler: serving content
or handing the request to the injected handler. -/
def Event.isAction : Event → Bool
  | Event.serveContent _ _ _ => true
  | Event.delegate _ => true
  | _ => false

/-- A request with the given `Connection` and `Upgrade` header values. -/
def headerRequest (conn upg : List GoString) : Request :=
  { Path := str "/ws",
    Header := fun k =>
      if k = str "Connection" then conn
      else if k = str "Upgrade" then upg
      else [] }

/-- The surroundings in which the dial succeeds and `w` is not a hijacker. -/
def envNoHijacker : TunnelEnv :=
  { dialErr := none, isHijacker := false, hijackErr := none, writeErr := none,
    copyUp := CopyState.running, copyDown := CopyState.running }

/-- The surroundings in which the dial succeeds and `Hijack()` fails. -/
def envHijackFails : TunnelEnv :=
  { dialErr := none, isHijacker := true, hijackErr := some (str "hijack failed"),
    writeErr := none, copyUp := CopyState.running, copyDown := CopyState.running }

/-- The surroundings in which everything succeeds and both copies end with a
clean end of stream. -/
def envCleanEOF : TunnelEnv :=
  { dialErr := none, isHijacker := true, hijackErr := none, writeErr := none,
    copyUp := CopyState.returned none, copyDown := CopyState.returned none }

/-- The surroundings in which everything succeeds, the client closes its side
cleanly and the backend keeps its side open. -/
def envClientEOF : TunnelEnv :=
  { dialErr := none, isHijacker := true, hijackErr := none, writeErr := none,
    copyUp := CopyState.returned none, copyDown := CopyState.running }

/-- The fixed failure response of `fileHandlerWithFallback`. -/
def failureResponse : List Event :=
  [Event.setHeader (str "Content-Type") (str "text/plain; charset=utf-8"),
   Event.setHeader (str "X-Content-Type-Options") (str "nosniff"),
   Event.writeHeader 500,
   Event.write (str "File not found and default could not be served.")]

/-- A request for the given path, without headers. -/
def pathRequest (path : GoString) : Request :=
  { Path := path, Header := fun _ => [] }

/-! ## Facts about `path.Clean` on rooted paths -/

theorem cleanLoop_nil (rooted : Bool) (f : Nat) (out : List Nat) (dd : Nat) :
    cleanLoop rooted f [] out dd = out := by
  cases f <;> simp [cleanLoop]

theorem dropWhile_length_le (p : Nat → Bool) (l : List Nat) :
    (l.dropWhile p).length ≤ l.length := by
  induction l with
  | nil => simp
  | cons a l ih =>
    simp only [List.dropWhile]
    split
    · simp only [List.length_cons]; omega
    · simp

/-- The bound of `cleanLoop` does not matter once it covers the input. -/
theorem cleanLoop_fuel (rooted : Bool) :
    ∀ (f1 f2 : Nat) (path out : List Nat) (dd : Nat),
      path.length ≤ f1 → path.length ≤ f2 →
      cleanLoop rooted f1 path out dd = cleanLoop rooted f2 path out dd := by
  intro f1
  induction f1 with
  | zero =>
    intro f2 path out dd h1 _
    have : path = [] := List.length_eq_zero.mp (Nat.le_zero.mp h1)
    subst this
    simp [cleanLoop_nil]
  | succ f1 ih =>
    intro f2 path out dd h1 h2
    cases path with
    | nil => simp [cleanLoop_nil]
    | cons c rest =>
      cases f2 with
      | zero => simp at h2
      | succ f2 =>
        simp only [List.length_cons, Nat.add_le_add_iff_right] at h1 h2
        have ht1 : rest.tail.length ≤ f1 := by simp only [List.length_tail]; omega
        have ht2 : rest.tail.length ≤ f2 := by simp only [List.length_tail]; omega
        have hd := dropWhile_length_le (fun x => decide ¬x = slash) rest
        simp only [cleanLoop]
        split_ifs with hc
        all_goals first
          | exact ih _ _ _ _ h1 h2
          | exact ih _ _ _ _ ht1 ht2
          | (apply ih
             · simp only [List.dropWhile, hc, ne_eq, not_false_eq_true, decide_True]; omega
             · simp only [List.dropWhile, hc, ne_eq, not_false_eq_true, decide_True]; omega)

theorem takeWhile_seg (s t : List Nat) (hs : slash ∉ s)
    (ht : t = [] ∨ t.head? = some slash) :
    (s ++ t).takeWhile (· ≠ slash) = s ∧ (s ++ t).dropWhile (· ≠ slash) = t := by
  induction s with
  | nil =>
    rcases ht with rfl | ht
    · simp
    · cases t with
      | nil => simp
      | cons a t =>
        simp only [List.head?_cons, Option.some.injEq] at ht
        subst ht
        simp [List.takeWhile, List.dropWhile]
  | cons c s ih =>
    simp only [List.mem_cons, not_or] at hs
    have hc : ¬ c = slash := fun h => hs.1 h.symm
    obtain ⟨h1, h2⟩ := ih hs.2
    have e : (c :: s) ++ t = c :: (s ++ t) := rfl
    have hd : decide (c ≠ slash) = true := by simpa using hc
    constructor
    · rw [e, List.takeWhile_cons, if_pos hd, h1]
    · rw [e, List.dropWhile_cons, if_pos hd, h2]

theorem cleanLoop_slash (f : Nat) (rest o : List Nat) :
    cleanLoop true (f + 1) (slash :: rest) o 1 = cleanLoop true f rest o 1 := by
  rw [cleanLoop, if_pos rfl]

theorem cleanLoop_dot (f : Nat) (t o : List Nat) (ht : t = [] ∨ t.head? = some slash) :
    cleanLoop true (f + 1) (dot :: t) o 1 = cleanLoop true f t o 1 := by
  rw [cleanLoop, if_neg (by decide), if_pos ⟨rfl, ht⟩]

theorem cleanLoop_dotdot (f : Nat) (t o : List Nat) (ht : t = [] ∨ t.head? = some slash) :
    cleanLoop true (f + 1) (dot :: dot :: t) o 1 =
      cleanLoop true f t (if o.length > 1 then backtrack 1 o else o) 1 := by
  rw [cleanLoop, if_neg (by decide), if_neg (by simp), if_pos ⟨rfl, rfl, ht⟩]
  by_cases h : o.length > 1
  · rw [if_pos h, if_pos h]; rfl
  · rw [if_neg h, if_neg h, if_neg (by simp)]; rfl

theorem cleanLoop_elem (f c : Nat) (rest o : List Nat) (hc : ¬ c = slash)
    (hb2 : ¬ (c = dot ∧ (rest = [] ∨ rest.head? = some slash)))
    (hb3 : ¬ (c = dot ∧ rest.head? = some dot ∧
      (rest.tail = [] ∨ rest.tail.head? = some slash))) :
    cleanLoop true (f + 1) (c :: rest) o 1 =
      cleanLoop true f ((c :: rest).dropWhile (· ≠ slash))
        (((c :: rest).takeWhile (· ≠ slash)).reverse ++
          (if o.length ≠ 1 then slash :: o else o)) 1 := by
  rw [cleanLoop, if_neg hc, if_neg hb2, if_neg hb3]
  simp

/-- Reading one segment `s` (up to the end of the input or the next slash)
has the effect `act`. -/
theorem cleanLoop_seg (s t : List Nat) (hs : slash ∉ s)
    (ht : t = [] ∨ t.head? = some slash) (o : List Nat) (f : Nat)
    (hf : (s ++ t).length ≤ f) :
    cleanLoop true f (s ++ t) o 1 = cleanLoop true f t (act o s) 1 := by
  cases s with
  | nil => simp [act]
  | cons c s =>
    cases f with
    | zero => simp at hf
    | succ f =>
      simp only [List.mem_cons, not_or] at hs
      have hc : ¬ c = slash := fun h => hs.1 h.symm
      have hlen : t.length ≤ f := by
        simp only [List.cons_append, List.length_cons, List.length_append] at hf; omega
      have hfuel : ∀ o2, cleanLoop true f t o2 1 = cleanLoop true (f + 1) t o2 1 :=
        fun o2 => cleanLoop_fuel true f (f + 1) t o2 1 hlen (by omega)
      by_cases h1 : c :: s = [dot]
      · simp only [List.cons.injEq] at h1
        obtain ⟨rfl, rfl⟩ := h1
        have e : [dot] ++ t = dot :: t := rfl
        have ea : act o [dot] = o := by simp [act]
        rw [e, ea, cleanLoop_dot f t o ht]
        exact hfuel o
      · by_cases h2 : c :: s = [dot, dot]
        · simp only [List.cons.injEq] at h2
          obtain ⟨rfl, rfl, rfl⟩ := h2
          have e : [dot, dot] ++ t = dot :: dot :: t := rfl
          have ea : act o [dot, dot] = if o.length > 1 then backtrack 1 o else o := by
            simp [act]
          rw [e, ea, cleanLoop_dotdot f t o ht]
          exact hfuel _
        · -- a real path element
          have htw := takeWhile_seg (c :: s) t (by simp [hs.2, Ne.symm hc]) ht
          have hb2 : ¬ (c = dot ∧ (s ++ t = [] ∨ (s ++ t).head? = some slash)) := by
            rintro ⟨rfl, h⟩
            apply h1
            cases s with
            | nil => rfl
            | cons a s =>
              rcases h with h | h
              · simp at h
              · simp only [List.cons_append, List.head?_cons, Option.some.injEq] at h
                simp only [List.mem_cons, not_or] at hs
                exact (hs.2.1 h.symm).elim
          have hb3 : ¬ (c = dot ∧ (s ++ t).head? = some dot ∧
              ((s ++ t).tail = [] ∨ (s ++ t).tail.head? = some slash)) := by
            rintro ⟨rfl, hh, h⟩
            cases s with
            | nil =>
              rcases ht with rfl | ht
              · simp at hh
              · simp only [List.nil_append] at hh
                rw [hh] at ht
                simp at ht
            | cons a s =>
              simp only [List.cons_append, List.head?_cons, Option.some.injEq] at hh
              subst hh
              apply h2
              cases s with
              | nil => rfl
              | cons b s =>
                simp only [List.cons_append, List.tail_cons, List.head?_cons,
                  Option.some.injEq, reduceCtorEq, false_or] at h
                simp only [List.mem_cons, not_or] at hs
                exact (hs.2.2.1 h.symm).elim
          have hact : act o (c :: s) = (c :: s).reverse ++
              (if o.length ≠ 1 then slash :: o else o) := by
            simp only [act, h1, h2, reduceCtorEq, false_or, if_false]
          have e : (c :: s) ++ t = c :: (s ++ t) := rfl
          rw [hact, e, cleanLoop_elem f c (s ++ t) o hc hb2 hb3, ← e, htw.1, htw.2]
          exact hfuel _

/-- The rooted loop on a slash-separated input folds `act` over its segments. -/
theorem cleanLoop_joinSlash : ∀ (segs : List GoString), (∀ s ∈ segs, slash ∉ s) →
    ∀ (o : List Nat) (f : Nat), (joinSlash segs).length ≤ f →
      cleanLoop true f (joinSlash segs) o 1 = segs.foldl act o
  | [], _, o, f, _ => by simp [joinSlash, cleanLoop_nil]
  | [s], h, o, f, hf => by
    have hs : slash ∉ s := h s (by simp)
    have := cleanLoop_seg s [] hs (Or.inl rfl) o f (by simpa [joinSlash] using hf)
    simp only [List.append_nil, cleanLoop_nil] at this
    simpa [joinSlash] using this
  | s :: s2 :: ss, h, o, f, hf => by
    have hs : slash ∉ s := h s (by simp)
    have e : joinSlash (s :: s2 :: ss) = s ++ slash :: joinSlash (s2 :: ss) := rfl
    rw [e] at hf ⊢
    rw [cleanLoop_seg s (slash :: joinSlash (s2 :: ss)) hs (Or.inr rfl) o f hf]
    cases f with
    | zero => simp at hf
    | succ f =>
      have hf2 : (joinSlash (s2 :: ss)).length ≤ f := by
        simp only [List.length_append, List.length_cons] at hf; omega
      rw [cleanLoop_slash,
        cleanLoop_joinSlash (s2 :: ss) (fun x hx => h x (List.mem_cons_of_mem _ hx)) _ f hf2]
      rfl

theorem splitSlash_ne_nil (p : GoString) : splitSlash p ≠ [] := by
  induction p with
  | nil => simp [splitSlash]
  | cons c rest ih =>
    simp only [splitSlash]
    split_ifs
    · simp
    · split <;> simp

theorem joinSlash_splitSlash (p : GoString) : joinSlash (splitSlash p) = p := by
  induction p with
  | nil => rfl
  | cons c rest ih =>
    simp only [splitSlash]
    split_ifs with hc
    · subst hc
      cases h : splitSlash rest with
      | nil => exact absurd h (splitSlash_ne_nil rest)
      | cons a as =>
        rw [h] at ih
        show [] ++ slash :: joinSlash (a :: as) = _
        rw [ih]; rfl
    · cases h : splitSlash rest with
      | nil => exact absurd h (splitSlash_ne_nil rest)
      | cons a as =>
        rw [h] at ih
        cases as with
        | nil =>
          simp only [joinSlash] at ih ⊢
          rw [ih]
        | cons b bs =>
          simp only [joinSlash] at ih ⊢
          rw [← ih]; rfl

theorem splitSlash_no_slash (p : GoString) : ∀ s ∈ splitSlash p, slash ∉ s := by
  induction p with
  | nil => simp [splitSlash]
  | cons c rest ih =>
    simp only [splitSlash]
    split_ifs with hc
    · intro s hs
      simp only [List.mem_cons] at hs
      rcases hs with rfl | hs
      · simp
      · exact ih s hs
    · cases h : splitSlash rest with
      | nil => exact absurd h (splitSlash_ne_nil rest)
      | cons a as =>
        rw [h] at ih
        intro s hs
        simp only [List.mem_cons] at hs
        rcases hs with rfl | hs
        · have := ih a (by simp)
          simp only [List.mem_cons, not_or]
          exact ⟨fun e => hc e.symm, this⟩
        · exact ih s (by simp [hs])

/-- The rooted loop on any input folds `act` over the segments of the input. -/
theorem cleanLoop_split (p o : List Nat) (f : Nat) (hf : p.length ≤ f) :
    cleanLoop true f p o 1 = (splitSlash p).foldl act o := by
  have := cleanLoop_joinSlash (splitSlash p) (splitSlash_no_slash p) o f
    (by rw [joinSlash_splitSlash]; exact hf)
  rwa [joinSlash_splitSlash] at this

theorem joinSegs_append (a b : List GoString) :
    joinSegs (a ++ b) = joinSegs a ++ joinSegs b := by
  induction a with
  | nil => rfl
  | cons x xs ih => simp [joinSegs, ih]

theorem rootedPath_of_ne_nil {segs : List GoString} (h : segs ≠ []) :
    rootedPath segs = joinSegs segs := by
  cases segs with
  | nil => exact absurd rfl h
  | cons a as => rfl

theorem joinSegs_eq_nil {segs : List GoString} : joinSegs segs = [] ↔ segs = [] := by
  cases segs <;> simp [joinSegs]

/-- The inner loop of `..` drops one slash-free element and the slash before
it, but never the leading slash. -/
theorem backtrackLoop_seg (u : List Nat) (hu : slash ∉ u) (R : List Nat) :
    ∀ b, b ≠ slash →
      backtrackLoop 1 b (u ++ slash :: R) = if R = [] then [slash] else R := by
  induction u with
  | nil =>
    intro b hb
    cases R with
    | nil => simp [backtrackLoop]
    | cons r R => simp [backtrackLoop, hb]
  | cons c u ih =>
    intro b hb
    simp only [List.mem_cons, not_or] at hu
    have hc : c ≠ slash := fun h => hu.1 h.symm
    have e : (c :: u) ++ slash :: R = c :: (u ++ slash :: R) := rfl
    rw [e, backtrackLoop, if_pos ⟨by simp, hb⟩]
    exact ih hu.2 c hc

theorem rootedPath_length_pos (segs : List GoString) : 0 < (rootedPath segs).length := by
  cases segs <;> simp [rootedPath, joinSegs]

theorem rootedPath_length_eq_one {segs : List GoString} (hg : ∀ s ∈ segs, GoodSeg s) :
    (rootedPath segs).length = 1 ↔ segs = [] := by
  cases segs with
  | nil => simp [rootedPath]
  | cons a as =>
    have ha : a ≠ [] := (hg a (by simp)).1
    have : 0 < a.length := List.length_pos.mpr ha
    simp only [rootedPath, joinSegs, List.length_cons, List.length_append, reduceCtorEq,
      iff_false]
    omega

theorem actSegs_good {segs : List GoString} (hg : ∀ s ∈ segs, GoodSeg s) (s : GoString)
    (hs : slash ∉ s) : ∀ x ∈ actSegs segs s, GoodSeg x := by
  unfold actSegs
  split_ifs with h1 h2
  · exact hg
  · intro x hx
    exact hg x (List.dropLast_subset _ hx)
  · intro x hx
    simp only [List.mem_append, List.mem_singleton] at hx
    rcases hx with hx | rfl
    · exact hg x hx
    · simp only [not_or] at h1
      exact ⟨h1.1, hs, h1.2, h2⟩

/-- On a clean rooted output, `act` is `actSegs`. -/
theorem act_rootedPath {segs : List GoString} (hg : ∀ s ∈ segs, GoodSeg s) (s : GoString) :
    act (rootedPath segs).reverse s = (rootedPath (actSegs segs s)).reverse := by
  unfold act actSegs
  by_cases h1 : s = [] ∨ s = [dot]
  · rw [if_pos h1, if_pos h1]
  · rw [if_neg h1, if_neg h1]
    by_cases h2 : s = [dot, dot]
    · rw [if_pos h2, if_pos h2]
      by_cases h3 : (rootedPath segs).reverse.length > 1
      · -- `..` with something to remove
        rw [if_pos h3]
        rcases List.eq_nil_or_concat segs with rfl | ⟨init, last, rfl⟩
        · simp [rootedPath] at h3
        · rw [List.concat_eq_append] at hg ⊢
          have hlast : GoodSeg last := hg last (by simp)
          have hne : last.reverse ≠ [] := by simpa using hlast.1
          rw [rootedPath_of_ne_nil (by simp), joinSegs_append, List.dropLast_concat]
          cases hr : last.reverse with
          | nil => exact absurd hr hne
          | cons b u =>
            have hmem : ∀ x ∈ b :: u, x ≠ slash := by
              intro x hx hxs
              rw [← hr] at hx
              exact hlast.2.1 (hxs ▸ List.mem_reverse.mp hx)
            have hb : b ≠ slash := hmem b (by simp)
            have hu : slash ∉ u := fun h => hmem slash (List.mem_cons_of_mem _ h) rfl
            have e : (joinSegs init ++ joinSegs [last]).reverse =
                b :: (u ++ slash :: (joinSegs init).reverse) := by
              simp [joinSegs, hr]
            rw [e, backtrack, backtrackLoop_seg u hu _ b hb]
            cases init with
            | nil => simp [rootedPath, joinSegs]
            | cons a as => simp [rootedPath, joinSegs]
      · -- `..` at the root
        rw [if_neg h3]
        have hlen : (rootedPath segs).length = 1 := by
          have := rootedPath_length_pos segs
          simp only [List.length_reverse] at h3
          omega
        have := (rootedPath_length_eq_one hg).mp hlen
        subst this
        rfl
    · -- a real path element
      rw [if_neg h2, if_neg h2]
      by_cases hseg : segs = []
      · subst hseg
        simp [rootedPath, joinSegs]
      · have hlen : (rootedPath segs).reverse.length ≠ 1 := by
          rw [List.length_reverse]
          exact fun h => hseg ((rootedPath_length_eq_one hg).mp h)
        rw [if_pos hlen, rootedPath_of_ne_nil hseg, rootedPath_of_ne_nil (by simp),
          joinSegs_append]
        simp [joinSegs]

theorem foldl_act_rootedPath : ∀ (input : List GoString), (∀ s ∈ input, slash ∉ s) →
    ∀ (segs : List GoString), (∀ s ∈ segs, GoodSeg s) →
      input.foldl act (rootedPath segs).reverse =
        (rootedPath (input.foldl actSegs segs)).reverse ∧
      ∀ s ∈ input.foldl actSegs segs, GoodSeg s
  | [], _, segs, hg => ⟨rfl, hg⟩
  | s :: rest, hin, segs, hg => by
    have hs : slash ∉ s := hin s (by simp)
    have hg2 := actSegs_good hg s hs
    have := foldl_act_rootedPath rest (fun x hx => hin x (List.mem_cons_of_mem _ hx))
      (actSegs segs s) hg2
    simp only [List.foldl_cons]
    rw [act_rootedPath hg s]
    exact this

/-- The function `path.Clean` on a rooted path, in terms of segments. -/
theorem Clean_rooted (x : GoString) :
    Clean (slash :: x) = rootedPath (cleanSegs x) ∧ ∀ s ∈ cleanSegs x, GoodSeg s := by
  have h := foldl_act_rootedPath (splitSlash x) (splitSlash_no_slash x) [] (by simp)
  have hl := cleanLoop_split x [slash] (slash :: x).length (by simp)
  have hr : (rootedPath ([] : List GoString)).reverse = [slash] := rfl
  rw [hr] at h
  refine ⟨?_, h.2⟩
  unfold Clean
  simp only [beq_self_eq_true, if_true]
  rw [hl, h.1]
  have := rootedPath_length_pos (cleanSegs x)
  simp only [List.length_reverse, List.reverse_reverse]
  rw [if_neg (by unfold cleanSegs at this; omega)]
  rfl

/-! ## Shape of a clean rooted path -/

theorem splitSlash_seg_nil (s : GoString) (hs : slash ∉ s) : splitSlash s = [s] := by
  induction s with
  | nil => rfl
  | cons c s ih =>
    simp only [List.mem_cons, not_or] at hs
    have hc : ¬ c = slash := fun h => hs.1 h.symm
    simp [splitSlash, hc, ih hs.2]

theorem splitSlash_seg_cons (s rest : GoString) (hs : slash ∉ s) :
    splitSlash (s ++ slash :: rest) = s :: splitSlash rest := by
  induction s with
  | nil => simp [splitSlash]
  | cons c s ih =>
    simp only [List.mem_cons, not_or] at hs
    have hc : ¬ c = slash := fun h => hs.1 h.symm
    simp [splitSlash, hc, ih hs.2]

theorem joinSegs_cons_eq (a : GoString) (as : List GoString) :
    joinSegs (a :: as) = slash :: joinSlash (a :: as) := by
  induction as generalizing a with
  | nil => simp [joinSegs, joinSlash]
  | cons b bs ih =>
    have := ih b
    simp only [joinSegs, joinSlash, List.cons.injEq, true_and] at this ⊢
    rw [this]
    rfl

theorem splitSlash_joinSlash : ∀ (segs : List GoString), segs ≠ [] →
    (∀ s ∈ segs, slash ∉ s) → splitSlash (joinSlash segs) = segs
  | [], h, _ => absurd rfl h
  | [s], _, hs => splitSlash_seg_nil s (hs s (by simp))
  | s :: s2 :: ss, _, hs => by
    have e : joinSlash (s :: s2 :: ss) = s ++ slash :: joinSlash (s2 :: ss) := rfl
    rw [e, splitSlash_seg_cons s _ (hs s (by simp)),
      splitSlash_joinSlash (s2 :: ss) (by simp) (fun x hx => hs x (List.mem_cons_of_mem _ hx))]

/-- The segments of a clean rooted path other than `/`: an empty one before
the leading slash, then the proper elements. -/
theorem splitSlash_joinSegs (segs : List GoString) (hne : segs ≠ [])
    (hg : ∀ s ∈ segs, GoodSeg s) : splitSlash (joinSegs segs) = [] :: segs := by
  cases segs with
  | nil => exact absurd rfl hne
  | cons a as =>
    rw [joinSegs_cons_eq]
    have := splitSlash_joinSlash (a :: as) (by simp) (fun s hs => (hg s hs).2.1)
    simp [splitSlash, this]

theorem splitSlash_tail_of_infix (l1 l2 : GoString) :
    [] ∈ (splitSlash (l1 ++ slash :: slash :: l2)).tail := by
  induction l1 with
  | nil => simp [splitSlash]
  | cons c l1 ih =>
    by_cases hc : c = slash
    · subst hc
      have : splitSlash (slash :: l1 ++ slash :: slash :: l2) =
          [] :: splitSlash (l1 ++ slash :: slash :: l2) := by simp [splitSlash]
      rw [this, List.tail_cons]
      exact List.mem_of_mem_tail ih
    · cases h : splitSlash (l1 ++ slash :: slash :: l2) with
      | nil => exact absurd h (splitSlash_ne_nil _)
      | cons a as =>
        rw [h] at ih
        have : splitSlash (c :: l1 ++ slash :: slash :: l2) = (c :: a) :: as := by
          simp [splitSlash, hc, h]
        rw [this]
        exact ih

theorem splitSlash_getLast_of_trailing (l : GoString) :
    (splitSlash (l ++ [slash])).getLast? = some [] := by
  induction l with
  | nil => simp [splitSlash]
  | cons c l ih =>
    cases h : splitSlash (l ++ [slash]) with
    | nil => exact absurd h (splitSlash_ne_nil _)
    | cons a as =>
      rw [h] at ih
      by_cases hc : c = slash
      · have : splitSlash (c :: l ++ [slash]) = [] :: a :: as := by
          simp [splitSlash, hc, h]
        rw [this, List.getLast?_cons_cons]
        exact ih
      · have : splitSlash (c :: l ++ [slash]) = (c :: a) :: as := by
          simp [splitSlash, hc, h]
        rw [this]
        cases as with
        | nil =>
          simp only [List.getLast?_singleton, Option.some.injEq] at ih
          have hl := splitSlash_no_slash (l ++ [slash])
          rw [h] at hl
          have h3 := joinSlash_splitSlash (l ++ [slash])
          rw [h, ih] at h3
          simp [joinSlash] at h3
        | cons b bs =>
          rw [List.getLast?_cons_cons] at ih ⊢
          exact ih

theorem normalize_cleanRooted (upath : GoString) : CleanRooted (normalize upath) := by
  unfold normalize
  cases upath with
  | nil => exact ⟨_, (Clean_rooted _).2, (Clean_rooted _).1⟩
  | cons c rest =>
    by_cases hc : c = slash
    · subst hc
      simp only [hasPrefixSlash, beq_self_eq_true, if_true]
      exact ⟨_, (Clean_rooted _).2, (Clean_rooted _).1⟩
    · have : hasPrefixSlash (c :: rest) = false := by simp [hasPrefixSlash, hc]
      rw [this]
      exact ⟨_, (Clean_rooted _).2, (Clean_rooted _).1⟩

/-- What being clean and rooted means on the bytes of the path. -/
theorem cleanRooted_shape {p : GoString} (h : CleanRooted p) :
    p.head? = some slash ∧
    (∀ seg ∈ splitSlash p, seg ≠ [dot, dot] ∧ seg ≠ [dot]) ∧
    (p = [slash] ∨ ∀ seg ∈ (splitSlash p).tail, seg ≠ []) ∧
    ¬ [slash, slash] <:+: p ∧
    (p = [slash] ∨ p.getLast? ≠ some slash) := by
  obtain ⟨segs, hg, rfl⟩ := h
  by_cases hne : segs = []
  · subst hne
    refine ⟨rfl, ?_, Or.inl rfl, ?_, Or.inl rfl⟩
    · intro seg hseg
      have : seg = [] := by simpa [rootedPath, splitSlash] using hseg
      subst this
      simp
    · rintro ⟨l1, l2, h⟩
      have := congrArg List.length h
      simp [rootedPath] at this
      omega
  · rw [rootedPath_of_ne_nil hne]
    have hsplit := splitSlash_joinSegs segs hne hg
    have hempty : ∀ seg ∈ (splitSlash (joinSegs segs)).tail, seg ≠ [] := by
      rw [hsplit]
      exact fun seg hseg => (hg seg hseg).1
    refine ⟨?_, ?_, Or.inr hempty, ?_, Or.inr ?_⟩
    · cases segs with
      | nil => exact absurd rfl hne
      | cons a as => rfl
    · rw [hsplit]
      intro seg hseg
      simp only [List.mem_cons] at hseg
      rcases hseg with rfl | hseg
      · simp
      · exact ⟨(hg seg hseg).2.2.2, (hg seg hseg).2.2.1⟩
    · rintro ⟨l1, l2, h⟩
      have hmem := splitSlash_tail_of_infix l1 l2
      have e : l1 ++ [slash, slash] ++ l2 = l1 ++ slash :: slash :: l2 := by simp
      rw [← e, h] at hmem
      exact hempty [] hmem rfl
    · intro hlast
      obtain ⟨l, hl⟩ : ∃ l, joinSegs segs = l ++ [slash] := by
        rcases List.eq_nil_or_concat (joinSegs segs) with h | ⟨l, b, h⟩
        · exact absurd (joinSegs_eq_nil.mp h) hne
        · rw [List.concat_eq_append] at h
          rw [h] at hlast
          have hb : b = slash := by simpa [List.getLast?_append] using hlast
          exact ⟨l, by rw [h, hb]⟩
      have h2 := splitSlash_getLast_of_trailing l
      rw [← hl, hsplit] at h2
      obtain ⟨init, last, hsegs⟩ : ∃ init last, segs = init ++ [last] := by
        rcases List.eq_nil_or_concat segs with h | ⟨i, b, h⟩
        · exact absurd h hne
        · exact ⟨i, b, by rw [h, List.concat_eq_append]⟩
      rw [hsegs] at h2 hg
      have : last = [] := by
        have e : ([] : GoString) :: (init ++ [last]) = (([] : GoString) :: init) ++ [last] := rfl
        rw [e, List.getLast?_append] at h2
        simpa using h2
      exact (hg last (by simp)).1 this

/-! ## Cleaning a clean path again, and the path of the recursive call -/

theorem foldl_actSegs_good : ∀ (segs : List GoString), (∀ s ∈ segs, GoodSeg s) →
    ∀ acc : List GoString, segs.foldl actSegs acc = acc ++ segs
  | [], _, acc => by simp
  | s :: rest, hg, acc => by
    have hs := hg s (by simp)
    have e : actSegs acc s = acc ++ [s] := by
      unfold actSegs
      rw [if_neg (by simp [hs.1, hs.2.2.1]), if_neg hs.2.2.2]
    rw [List.foldl_cons, e,
      foldl_actSegs_good rest (fun x hx => hg x (List.mem_cons_of_mem _ hx))]
    simp

/-- The function `path.Clean` leaves a clean rooted path as it is. -/
theorem Clean_joinSegs (segs : List GoString) (hne : segs ≠ [])
    (hg : ∀ s ∈ segs, GoodSeg s) : Clean (joinSegs segs) = joinSegs segs := by
  cases segs with
  | nil => exact absurd rfl hne
  | cons a as =>
    rw [joinSegs_cons_eq, (Clean_rooted _).1]
    unfold cleanSegs
    rw [splitSlash_joinSlash (a :: as) (by simp) (fun s hs => (hg s hs).2.1),
      foldl_actSegs_good (a :: as) hg []]
    simp only [List.nil_append, rootedPath]
    exact joinSegs_cons_eq a as

theorem goodSeg_index : GoodSeg (str "index.html") := by
  unfold GoodSeg
  decide

/-- The path of the recursive call of `lookupContent`, after normalization:
the directory path followed by `/index.html/index.html`. -/
theorem normalize_index {p : GoString} (h : CleanRooted p) :
    normalize ((p ++ str "/index.html") ++ str "/index.html") =
      (if p = [slash] then [] else p) ++ str "/index.html/index.html" := by
  obtain ⟨segs, hg, rfl⟩ := h
  cases segs with
  | nil =>
    simp only [rootedPath, if_true, List.nil_append]
    decide
  | cons a as =>
    have ha : a ≠ [] := (hg a (by simp)).1
    have hp : ¬ rootedPath (a :: as) = [slash] := by
      intro h
      have := congrArg List.length h
      have hl : 0 < a.length := List.length_pos.mpr ha
      simp only [rootedPath, joinSegs, List.length_cons, List.length_append, List.length_nil,
        Nat.zero_add] at this
      omega
    rw [if_neg hp]
    have hi : str "/index.html" = joinSegs [str "index.html"] := by decide
    have hii : str "/index.html/index.html" =
        joinSegs [str "index.html"] ++ joinSegs [str "index.html"] := by decide
    have hg2 : ∀ s ∈ (a :: as) ++ [str "index.html"] ++ [str "index.html"], GoodSeg s := by
      intro s hs
      simp only [List.mem_append, List.mem_singleton] at hs
      rcases hs with (hs | rfl) | rfl
      · exact hg s hs
      · exact goodSeg_index
      · exact goodSeg_index
    have e : (rootedPath (a :: as) ++ str "/index.html") ++ str "/index.html" =
        joinSegs ((a :: as) ++ [str "index.html"] ++ [str "index.html"]) := by
      rw [joinSegs_append, joinSegs_append, hi]; rfl
    have hpre : hasPrefixSlash (joinSegs ((a :: as) ++ [str "index.html"] ++
        [str "index.html"])) = true := by
      simp [joinSegs, hasPrefixSlash]
    unfold normalize
    rw [e, hpre, if_pos rfl, Clean_joinSegs _ (by simp) hg2, joinSegs_append, joinSegs_append,
      hii, List.append_assoc]
    rfl

theorem normalize_index_length {p : GoString} (h : CleanRooted p) :
    p.length < (normalize ((p ++ str "/index.html") ++ str "/index.html")).length := by
  rw [normalize_index h]
  have h22 : (str "/index.html/index.html").length = 22 := by decide
  split_ifs with hp
  · subst hp
    simp only [List.nil_append, h22, List.length_singleton]
    omega
  · simp only [List.length_append, h22]
    omega

/-! ## The chain of `Open` calls of `lookupContent` -/

theorem lookupContent_dir (root : FileSystem) (f : Nat) (u : GoString)
    (h : opensAsDir root (normalize u) = true) :
    lookupContent root (f + 1) u =
      ((lookupContent root f (indexPath (normalize u))).1,
        normalize u :: (lookupContent root f (indexPath (normalize u))).2) := by
  unfold opensAsDir at h
  cases ho : root.Open (normalize u) with
  | none => simp [ho] at h
  | some file =>
    cases hs : file.Stat with
    | none => simp [ho, hs] at h
    | some info =>
      simp only [ho, hs] at h
      simp only [lookupContent, ho, hs, h, if_true, indexPath]

theorem lookupContent_notDir (root : FileSystem) (f : Nat) (u : GoString)
    (h : opensAsDir root (normalize u) = false) :
    ∃ res, lookupContent root (f + 1) u = (some res, [normalize u]) := by
  unfold opensAsDir at h
  cases ho : root.Open (normalize u) with
  | none => exact ⟨Lookup.notFound, by simp only [lookupContent, ho]⟩
  | some file =>
    cases hs : file.Stat with
    | none => exact ⟨Lookup.notFound, by simp only [lookupContent, ho, hs]⟩
    | some info =>
      simp only [ho, hs] at h
      exact ⟨Lookup.found file info,
        by simp only [lookupContent, ho, hs, h, Bool.false_eq_true, if_false]⟩

/-- The paths opened by one call: all clean and rooted, each strictly longer
than the one before, and all but the last one directories. -/
theorem lookupContent_chain (root : FileSystem) : ∀ (fuel : Nat) (u : GoString),
    (∀ p ∈ (lookupContent root fuel u).2,
      CleanRooted p ∧ (normalize u).length ≤ p.length) ∧
    (lookupContent root fuel u).2.Pairwise (fun a b => a.length < b.length) ∧
    ((lookupContent root fuel u).1 = none →
      (lookupContent root fuel u).2.length = fuel ∧
      ∀ p ∈ (lookupContent root fuel u).2, opensAsDir root p = true) ∧
    ((lookupContent root fuel u).1 ≠ none →
      (lookupContent root fuel u).2 ≠ [] ∧
      (lookupContent root fuel u).2.length ≤ fuel ∧
      ∀ p ∈ (lookupContent root fuel u).2.dropLast, opensAsDir root p = true) := by
  intro fuel
  induction fuel with
  | zero =>
    intro u
    simp [lookupContent]
  | succ f ih =>
    intro u
    cases hd : opensAsDir root (normalize u) with
    | false =>
      obtain ⟨res, hres⟩ := lookupContent_notDir root f u hd
      rw [hres]
      refine ⟨?_, by simp, by simp, ?_⟩
      · intro p hp
        simp only [List.mem_singleton] at hp
        subst hp
        exact ⟨normalize_cleanRooted u, le_refl _⟩
      · intro _
        simp
    | true =>
      rw [lookupContent_dir root f u hd]
      obtain ⟨h1, h2, h3, h4⟩ := ih (indexPath (normalize u))
      have hlt : (normalize u).length < (normalize (indexPath (normalize u))).length :=
        normalize_index_length (normalize_cleanRooted u)
      refine ⟨?_, ?_, ?_, ?_⟩
      · intro p hp
        simp only [List.mem_cons] at hp
        rcases hp with rfl | hp
        · exact ⟨normalize_cleanRooted u, le_refl _⟩
        · exact ⟨(h1 p hp).1, by have := (h1 p hp).2; omega⟩
      · simp only [List.pairwise_cons]
        refine ⟨?_, h2⟩
        intro p hp
        have := (h1 p hp).2
        omega
      · intro hnone
        simp only at hnone
        obtain ⟨hl, hall⟩ := h3 hnone
        refine ⟨by simp [hl], ?_⟩
        intro p hp
        simp only [List.mem_cons] at hp
        rcases hp with rfl | hp
        · exact hd
        · exact hall p hp
      · intro hsome
        simp only at hsome
        obtain ⟨hne, hl, hall⟩ := h4 hsome
        refine ⟨by simp, by simp only [List.length_cons]; omega, ?_⟩
        intro p hp
        rw [List.dropLast_cons_of_ne_nil hne] at hp
        simp only [List.mem_cons] at hp
        rcases hp with rfl | hp
        · exact hd
        · exact hall p hp

/-- Once the call returns within a bound, a larger bound changes nothing. -/
theorem lookupContent_mono (root : FileSystem) : ∀ (f : Nat) (u : GoString),
    (lookupContent root f u).1 ≠ none →
    ∀ k, lookupContent root (f + k) u = lookupContent root f u := by
  intro f
  induction f with
  | zero => intro u h; simp [lookupContent] at h
  | succ f ih =>
    intro u h k
    have e : f + 1 + k = (f + k) + 1 := by omega
    rw [e]
    cases hd : opensAsDir root (normalize u) with
    | false =>
      have key : ∀ g, lookupContent root (g + 1) u = lookupContent root 1 u := by
        intro g
        unfold opensAsDir at hd
        cases ho : root.Open (normalize u) with
        | none => simp only [lookupContent, ho]
        | some file =>
          cases hs : file.Stat with
          | none => simp only [lookupContent, ho, hs]
          | some info =>
            simp only [ho, hs] at hd
            simp only [lookupContent, ho, hs, hd, Bool.false_eq_true, if_false]
      rw [key (f + k), key f]
    | true =>
      rw [lookupContent_dir root f u hd] at h ⊢
      rw [lookupContent_dir root (f + k) u hd, ih _ h k]

/-- With at most `dirs.card` directories, a bound above `dirs.card` is never
reached, and at most `dirs.card + 1` paths are opened. -/
theorem lookupContent_bound (root : FileSystem) (dirs : Finset GoString)
    (hdirs : ∀ p, opensAsDir root p = true → p ∈ dirs) (fuel : Nat) (u : GoString)
    (hfuel : dirs.card < fuel) :
    (lookupContent root fuel u).1 ≠ none ∧
    (lookupContent root fuel u).2.length ≤ dirs.card + 1 := by
  obtain ⟨_, h2, h3, h4⟩ := lookupContent_chain root fuel u
  have hnodup : (lookupContent root fuel u).2.Nodup :=
    h2.imp (fun {a b} hab heq => by rw [heq] at hab; omega)
  have hcard : ∀ l : List GoString, l.Nodup → (∀ p ∈ l, opensAsDir root p = true) →
      l.length ≤ dirs.card := by
    intro l hl hall
    rw [← List.toFinset_card_of_nodup hl]
    apply Finset.card_le_card
    intro p hp
    exact hdirs p (hall p (List.mem_toFinset.mp hp))
  have hsome : (lookupContent root fuel u).1 ≠ none := by
    intro hnone
    obtain ⟨hl, hall⟩ := h3 hnone
    have := hcard _ hnodup hall
    omega
  refine ⟨hsome, ?_⟩
  obtain ⟨hne, _, hall⟩ := h4 hsome
  have hsub : (lookupContent root fuel u).2.dropLast.Nodup :=
    hnodup.sublist (List.dropLast_sublist _)
  have := hcard _ hsub hall
  simp only [List.length_dropLast] at this
  omega

/-- The same bound when only the clean rooted directory paths are counted,
as for a filesystem that cleans the names it is given. -/
theorem lookupContent_bound_clean (root : FileSystem) (dirs : Finset GoString)
    (hdirs : ∀ p, CleanRooted p → opensAsDir root p = true → p ∈ dirs) (fuel : Nat)
    (u : GoString) (hfuel : dirs.card < fuel) :
    (lookupContent root fuel u).1 ≠ none ∧
    (lookupContent root fuel u).2.length ≤ dirs.card + 1 := by
  obtain ⟨h1, h2, h3, h4⟩ := lookupContent_chain root fuel u
  have hnodup : (lookupContent root fuel u).2.Nodup :=
    h2.imp (fun {a b} hab heq => by rw [heq] at hab; omega)
  have hcard : ∀ l : List GoString, l.Nodup →
      (∀ p ∈ l, CleanRooted p ∧ opensAsDir root p = true) → l.length ≤ dirs.card := by
    intro l hl hall
    rw [← List.toFinset_card_of_nodup hl]
    apply Finset.card_le_card
    intro p hp
    have := hall p (List.mem_toFinset.mp hp)
    exact hdirs p this.1 this.2
  have hsome : (lookupContent root fuel u).1 ≠ none := by
    intro hnone
    obtain ⟨hl, hall⟩ := h3 hnone
    have := hcard _ hnodup (fun p hp => ⟨(h1 p hp).1, hall p hp⟩)
    omega
  refine ⟨hsome, ?_⟩
  obtain ⟨hne, _, hall⟩ := h4 hsome
  have hsub : (lookupContent root fuel u).2.dropLast.Nodup :=
    hnodup.sublist (List.dropLast_sublist _)
  have := hcard _ hsub
    (fun p hp => ⟨(h1 p (List.dropLast_subset _ hp)).1, hall p hp⟩)
  simp only [List.length_dropLast] at this
  omega

theorem opensAsDir_everyDirFS (p : GoString) : opensAsDir everyDirFS p = true := rfl

theorem lookupContent_everyDirFS : ∀ (fuel : Nat) (u : GoString),
    (lookupContent everyDirFS fuel u).1 = none ∧
    (lookupContent everyDirFS fuel u).2.length = fuel := by
  intro fuel
  induction fuel with
  | zero => intro u; simp [lookupContent]
  | succ f ih =>
    intro u
    rw [lookupContent_dir everyDirFS f u (opensAsDir_everyDirFS _)]
    exact ⟨(ih _).1, by simp [(ih _).2]⟩

theorem opensAsDir_docsFS (p : GoString) (h : opensAsDir docsFS p = true) :
    p ∈ ({str "/docs"} : Finset GoString) := by
  unfold opensAsDir docsFS at h
  simp only at h
  by_cases h1 : p = str "/docs"
  · simp [h1]
  · rw [if_neg h1] at h
    by_cases h2 : p = str "/docs/index.html"
    · rw [if_pos h2] at h
      simp [regFile] at h
    · rw [if_neg h2] at h
      simp at h

/-- After a directory at the normalized path `D`, the second `Open` is on
`D/index.html/index.html` (on `/index.html/index.html` when `D` is `/`). -/
theorem lookupContent_second_open (root : FileSystem) (f : Nat) (u : GoString)
    (h : opensAsDir root (normalize u) = true) :
    (lookupContent root (f + 2) u).2.take 2 =
      [normalize u,
       (if normalize u = [slash] then [] else normalize u) ++ str "/index.html/index.html"] := by
  rw [lookupContent_dir root (f + 1) u h]
  have hn : normalize (indexPath (normalize u)) =
      (if normalize u = [slash] then [] else normalize u) ++ str "/index.html/index.html" :=
    normalize_index (normalize_cleanRooted u)
  cases hd : opensAsDir root (normalize (indexPath (normalize u))) with
  | false =>
    obtain ⟨res, hres⟩ := lookupContent_notDir root f _ hd
    rw [hres, hn]
    rfl
  | true =>
    rw [lookupContent_dir root f _ hd, hn]
    rfl

/-- Once the hijack has succeeded, a run that returns has closed both
connections. -/
theorem ServeHTTP_closes_after_hijack (env : TunnelEnv) (hd : env.dialErr = none)
    (hj : env.isHijacker = true) (hh : env.hijackErr = none)
    (hr : (WebSocketReverseProxy.ServeHTTP env).returned = true) :
    backendLeftOpen (WebSocketReverseProxy.ServeHTTP env) = false ∧
    clientLeftOpen (WebSocketReverseProxy.ServeHTTP env) = false := by
  unfold WebSocketReverseProxy.ServeHTTP at hr ⊢
  simp only [hd, hj, hh, Bool.not_true, Bool.false_eq_true, if_false] at hr ⊢
  cases hw : env.writeErr with
  | some e => simp [backendLeftOpen, clientLeftOpen]
  | none =>
    simp only [hw] at hr ⊢
    cases hc : cp env.copyUp ++ cp env.copyDown with
    | nil => simp [hc] at hr
    | cons e es => simp [backendLeftOpen, clientLeftOpen]

/-- With dial, hijack and forwarding done, the handler returns exactly when
one of the two copies ended with an error. -/
theorem ServeHTTP_relay_returns_iff (env : TunnelEnv) (hd : env.dialErr = none)
    (hj : env.isHijacker = true) (hh : env.hijackErr = none) (hw : env.writeErr = none) :
    (WebSocketReverseProxy.ServeHTTP env).returned = true ↔
      (∃ e, env.copyUp = CopyState.returned (some e)) ∨
      (∃ e, env.copyDown = CopyState.returned (some e)) := by
  unfold WebSocketReverseProxy.ServeHTTP
  simp only [hd, hj, hh, hw, Bool.not_true, Bool.false_eq_true, if_false]
  cases hu : env.copyUp with
  | running =>
    cases hdn : env.copyDown with
    | running => simp [cp]
    | returned err => cases err <;> simp [cp]
  | returned err =>
    cases err with
    | some e => simp [cp]
    | none =>
      cases hdn : env.copyDown with
      | running => simp [cp]
      | returned err => cases err <;> simp [cp]

/-! ## The claims -/

/-- C1, as the code behaves: `/docs` is a directory and `/docs/index.html` a
regular file, yet `lookupContent` opens `/docs/index.html/index.html` as its
second path (the index suffix is appended twice) and reports a miss. -/
theorem lookupContent_docs_misses_index :
    opensAsDir docsFS (normalize (str "/docs")) = true ∧
    docsFS.Open (Clean (normalize (str "/docs") ++ str "/index.html")) =
      some (regFile 2 (str "index.html")) ∧
    ∀ k, lookupContent docsFS (k + 2) (str "/docs") =
      (some Lookup.notFound, [str "/docs", str "/docs/index.html/index.html"]) := by
  refine ⟨by decide, by decide, ?_⟩
  intro k
  have h2 : lookupContent docsFS 2 (str "/docs") =
      (some Lookup.notFound, [str "/docs", str "/docs/index.html/index.html"]) := by decide
  have := lookupContent_mono docsFS 2 (str "/docs") (by rw [h2]; simp) k
  rw [Nat.add_comm k 2, this, h2]

/-- C2: when the normalized path opens and stats as a regular file,
`lookupContent` returns that file and its metadata after one `Open` call,
whatever the allowed recursion depth (at least one call). -/
theorem lookupContent_regular_file (root : FileSystem) (P : GoString) (h : File)
    (m : FileInfo) (fuel : Nat) (hopen : root.Open (normalize P) = some h)
    (hstat : h.Stat = some m) (hdir : m.IsDir = false) :
    lookupContent root (fuel + 1) P = (some (Lookup.found h m), [normalize P]) := by
  simp only [lookupContent, hopen, hstat, hdir, Bool.false_eq_true, if_false]

theorem lookupContent_regular_file_witness :
    lookupContent docsFS (0 + 1) (str "docs/./index.html") =
      (some (Lookup.found (regFile 2 (str "index.html"))
        { Name := str "index.html", IsDir := false, ModTime := 7 }),
       [normalize (str "docs/./index.html")]) :=
  lookupContent_regular_file docsFS (str "docs/./index.html") (regFile 2 (str "index.html"))
    { Name := str "index.html", IsDir := false, ModTime := 7 } 0 (by decide) (by decide)
    (by decide)

theorem ToLower_nil (um : GoString → GoString) : ToLower um (str "") = [] := rfl

/-- C3: `IsWebSocket` is true exactly when the first `Connection` value
lower-cases to `upgrade` and the first `Upgrade` value lower-cases to
`websocket`; it is false when either header is absent, false for the
`Connection` value `keep-alive, Upgrade`, and depends only on the first value
of each header. -/
theorem IsWebSocket_exact_first_value (um : GoString → GoString) (r : Request) :
    (IsWebSocket um r = true ↔
      (∃ c rest, r.Header (str "Connection") = c :: rest ∧ ToLower um c = str "upgrade") ∧
      (∃ u rest, r.Header (str "Upgrade") = u :: rest ∧ ToLower um u = str "websocket")) ∧
    (r.Header (str "Connection") = [] → IsWebSocket um r = false) ∧
    (r.Header (str "Upgrade") = [] → IsWebSocket um r = false) ∧
    (∀ rest, r.Header (str "Connection") = str "keep-alive, Upgrade" :: rest →
      IsWebSocket um r = false) ∧
    (∀ r2 : Request,
      (r.Header (str "Connection")).head? = (r2.Header (str "Connection")).head? →
      (r.Header (str "Upgrade")).head? = (r2.Header (str "Upgrade")).head? →
      IsWebSocket um r = IsWebSocket um r2) := by
  have hnil : ¬ ToLower um (str "") = str "upgrade" := by
    rw [ToLower_nil]; decide
  have hmulti : ¬ ToLower um (str "keep-alive, Upgrade") = str "upgrade" := by
    have : ToLower um (str "keep-alive, Upgrade") = str "keep-alive, upgrade" := by
      unfold ToLower
      rw [if_pos (by decide)]
      decide
    rw [this]; decide
  have key : ∀ q : Request, IsWebSocket um q =
      (match (q.Header (str "Connection")).head?, (q.Header (str "Upgrade")).head? with
       | some c, some u =>
         decide (ToLower um c = str "upgrade") && decide (ToLower um u = str "websocket")
       | _, _ => false) := by
    intro q
    unfold IsWebSocket
    cases hc : q.Header (str "Connection") with
    | nil => simp [hnil]
    | cons c crest =>
      cases hu : q.Header (str "Upgrade") with
      | nil => simp
      | cons u urest =>
        by_cases h : ToLower um c = str "upgrade" <;> simp [h]
  refine ⟨?_, ?_, ?_, ?_, ?_⟩
  · rw [key r]
    cases hc : r.Header (str "Connection") with
    | nil => simp
    | cons c crest =>
      cases hu : r.Header (str "Upgrade") with
      | nil => simp
      | cons u urest => simp
  · intro h
    rw [key r, h]
    rfl
  · intro h
    rw [key r, h]
    cases (r.Header (str "Connection")).head? <;> rfl
  · intro rest h
    rw [key r, h]
    cases (r.Header (str "Upgrade")).head? with
    | none => rfl
    | some u => simp [hmulti]
  · intro r2 h1 h2
    rw [key r, key r2, h1, h2]

theorem IsWebSocket_exact_first_value_witness :
    IsWebSocket id (headerRequest [str "Upgrade", str "x"] [str "WebSocket"]) = true ∧
    IsWebSocket id (headerRequest [str "keep-alive, Upgrade"] [str "websocket"]) = false :=
  ⟨(IsWebSocket_exact_first_value id
      (headerRequest [str "Upgrade", str "x"] [str "WebSocket"])).1.mpr
      ⟨⟨str "Upgrade", [str "x"], by decide, by decide⟩,
       ⟨str "WebSocket", [], by decide, by decide⟩⟩,
   (IsWebSocket_exact_first_value id
      (headerRequest [str "keep-alive, Upgrade"] [str "websocket"])).2.2.2.1 [] (by decide)⟩

/-- C4, as the code behaves: when the dial succeeds and either `w` is not a
hijacker or `Hijack()` fails, `ServeHTTP` returns with the backend connection
still open (the deferred `d.Close()` is registered only after the hijack). -/
theorem ServeHTTP_returns_with_backend_open :
    (WebSocketReverseProxy.ServeHTTP envNoHijacker).returned = true ∧
    backendLeftOpen (WebSocketReverseProxy.ServeHTTP envNoHijacker) = true ∧
    (WebSocketReverseProxy.ServeHTTP envHijackFails).returned = true ∧
    backendLeftOpen (WebSocketReverseProxy.ServeHTTP envHijackFails) = true := by
  decide

/-- C5, as the code behaves: a relay task whose copy ends with a `nil` error
sends nothing on `errc`; when no copy ends with an error the handler stays
blocked in its receive and both sockets stay open. -/
theorem ServeHTTP_blocked_after_clean_end_of_stream :
    cp (CopyState.returned none) = [] ∧
    (WebSocketReverseProxy.ServeHTTP envCleanEOF).returned = false ∧
    backendLeftOpen (WebSocketReverseProxy.ServeHTTP envCleanEOF) = true ∧
    clientLeftOpen (WebSocketReverseProxy.ServeHTTP envCleanEOF) = true ∧
    (WebSocketReverseProxy.ServeHTTP envClientEOF).returned = false := by
  decide

/-- C6: when `lookupContent` misses, the handler serves the fallback with the
name and modification time of its `Stat()` and does nothing else; when that
`Stat()` fails it sets the two headers, writes status 500 and the fixed body,
in this order, and never serves content. -/
theorem fileHandlerWithFallback_miss (f : fileHandlerWithFallback) (fuel : Nat)
    (r : Request) (opens : List GoString)
    (hmiss : lookupContent f.root fuel r.Path = (some Lookup.notFound, opens)) :
    (∀ m, f.fallback.Stat = some m →
      f.ServeHTTP fuel r = some (opens.map Event.fsOpen ++
        [Event.serveContent m.Name m.ModTime f.fallback.content])) ∧
    (f.fallback.Stat = none →
      f.ServeHTTP fuel r = some (opens.map Event.fsOpen ++ failureResponse) ∧
      ∀ e ∈ opens.map Event.fsOpen ++ failureResponse, ∀ n t c,
        e ≠ Event.serveContent n t c) := by
  constructor
  · intro m hm
    simp only [fileHandlerWithFallback.ServeHTTP, hmiss, hm]
  · intro hnone
    constructor
    · simp only [fileHandlerWithFallback.ServeHTTP, hmiss, hnone, failureResponse]
    · intro e he n t c heq
      subst heq
      simp [failureResponse] at he

theorem fileHandlerWithFallback_miss_witness :
    (∀ m, (regFile 9 (str "fallback.html")).Stat = some m →
      fileHandlerWithFallback.ServeHTTP
        { root := docsFS, fallback := regFile 9 (str "fallback.html") } 3
        (pathRequest (str "/missing")) =
      some ([str "/missing"].map Event.fsOpen ++
        [Event.serveContent m.Name m.ModTime 9])) ∧
    (fileHandlerWithFallback.ServeHTTP
        { root := docsFS, fallback := { content := 9, Stat := none } } 3
        (pathRequest (str "/missing")) =
      some ([str "/missing"].map Event.fsOpen ++ failureResponse)) :=
  ⟨(fileHandlerWithFallback_miss
      { root := docsFS, fallback := regFile 9 (str "fallback.html") } 3
      (pathRequest (str "/missing")) [str "/missing"] (by decide)).1,
   ((fileHandlerWithFallback_miss
      { root := docsFS, fallback := { content := 9, Stat := none } } 3
      (pathRequest (str "/missing")) [str "/missing"] (by decide)).2 rfl).1⟩

/-- The handler does not depend on the depth bound once the lookup returns
within it. -/
theorem fileHandlerWithNotFoundHandler_bound_irrelevant (root : FileSystem) (fuel : Nat)
    (r : Request) (hret : (lookupContent root fuel r.Path).1 ≠ none) (k : Nat) :
    fileHandlerWithNotFoundHandler.ServeHTTP { root := root } (fuel + k) r =
      fileHandlerWithNotFoundHandler.ServeHTTP { root := root } fuel r := by
  unfold fileHandlerWithNotFoundHandler.ServeHTTP
  simp only [lookupContent_mono root fuel r.Path hret k]

/-- C7, as the code behaves on the filesystem where every path opens as a
directory: for the path `/x` the handler never returns, whatever the depth
bound, so it does neither of its two actions. -/
theorem fileHandlerWithNotFoundHandler_no_action_on_everyDirFS :
    (str "/x" ≠ str "index.html") ∧
    ∀ fuel, fileHandlerWithNotFoundHandler.ServeHTTP { root := everyDirFS } fuel
      (pathRequest (str "/x")) = none := by
  refine ⟨by decide, ?_⟩
  intro fuel
  have h := (lookupContent_everyDirFS fuel (str "/x")).1
  have hp : ¬ (pathRequest (str "/x")).Path = str "index.html" := by decide
  unfold fileHandlerWithNotFoundHandler.ServeHTTP
  rw [if_neg hp]
  cases hl : lookupContent everyDirFS fuel (pathRequest (str "/x")).Path with
  | mk res opens =>
    have hres : res = none := by
      have : (lookupContent everyDirFS fuel (str "/x")).1 = res := by
        have e : (pathRequest (str "/x")).Path = str "/x" := rfl
        rw [← e, hl]
      rw [← this]; exact h
    subst hres
    rfl

/-- C7, amended: for every request whose path is literally `index.html` or
for which `lookupContent` returns, the handler returns (for this and every
larger depth bound), having done exactly one of its two actions once: it
hands the request to the injected handler exactly when the path is literally
`index.html` or `lookupContent` misses, and otherwise serves the file found.
For the path `index.html` nothing is opened; for a path that begins with `/`
the lookup is made. -/
theorem fileHandlerWithNotFoundHandler_dispatch (root : FileSystem) (fuel : Nat)
    (r : Request)
    (hret : r.Path = str "index.html" ∨ (lookupContent root fuel r.Path).1 ≠ none) :
    ∃ events,
      (∀ k, fileHandlerWithNotFoundHandler.ServeHTTP { root := root } (fuel + k) r =
        some events) ∧
      (events.filter Event.isAction = [Event.delegate r] ∨
        ∃ file info opens,
          lookupContent root fuel r.Path = (some (Lookup.found file info), opens) ∧
          events.filter Event.isAction =
            [Event.serveContent info.Name info.ModTime file.content]) ∧
      (events.filter Event.isAction = [Event.delegate r] ↔
        (r.Path = str "index.html" ∨
          (lookupContent root fuel r.Path).1 = some Lookup.notFound)) ∧
      (r.Path = str "index.html" → events = [Event.delegate r]) ∧
      (hasPrefixSlash r.Path = true →
        r.Path ≠ str "index.html" ∧
        events.head? = some (Event.fsOpen (normalize r.Path))) := by
  have hfilter : ∀ (opens : List GoString) (e : Event), e.isAction = true →
      (opens.map Event.fsOpen ++ [e]).filter Event.isAction = [e] := by
    intro opens e he
    induction opens with
    | nil => simp [he]
    | cons a as ih => simpa [Event.isAction] using ih
  have hslash : hasPrefixSlash r.Path = true → r.Path ≠ str "index.html" := by
    intro h heq
    rw [heq] at h
    exact absurd h (by decide)
  by_cases hp : r.Path = str "index.html"
  · refine ⟨[Event.delegate r], ?_, ?_, ?_, ?_, ?_⟩
    · intro k
      simp only [fileHandlerWithNotFoundHandler.ServeHTTP, hp, if_true]
    · left; rfl
    · exact ⟨fun _ => Or.inl hp, fun _ => rfl⟩
    · intro _; rfl
    · intro h; exact absurd hp (hslash h)
  · have hsome : (lookupContent root fuel r.Path).1 ≠ none := by
      rcases hret with h | h
      · exact absurd h hp
      · exact h
    have hbound := fileHandlerWithNotFoundHandler_bound_irrelevant root fuel r hsome
    have hhead : ∀ res, (lookupContent root fuel r.Path).1 = some res →
        (lookupContent root fuel r.Path).2.head? = some (normalize r.Path) := by
      intro res hres
      cases fuel with
      | zero => simp [lookupContent] at hres
      | succ g =>
        cases hd : opensAsDir root (normalize r.Path) with
        | false =>
          obtain ⟨res2, h2⟩ := lookupContent_notDir root g r.Path hd
          rw [h2]; rfl
        | true =>
          rw [lookupContent_dir root g r.Path hd]; rfl
    cases hl : lookupContent root fuel r.Path with
    | mk res opens =>
      rw [hl] at hsome hhead
      cases res with
      | none => exact absurd rfl hsome
      | some res =>
        have hopens : opens.head? = some (normalize r.Path) := hhead res rfl
        have hheadev : ∀ e : Event, (opens.map Event.fsOpen ++ [e]).head? =
            some (Event.fsOpen (normalize r.Path)) := by
          intro e
          cases opens with
          | nil => simp at hopens
          | cons a as =>
            simp only [List.head?_cons, Option.some.injEq] at hopens
            simp [hopens]
        cases res with
        | notFound =>
          refine ⟨opens.map Event.fsOpen ++ [Event.delegate r], ?_, ?_, ?_, ?_, ?_⟩
          · intro k
            rw [hbound k]
            simp only [fileHandlerWithNotFoundHandler.ServeHTTP, hp, if_false, hl]
          · left; exact hfilter opens _ rfl
          · exact ⟨fun _ => Or.inr rfl, fun _ => hfilter opens _ rfl⟩
          · intro h; exact absurd h hp
          · intro _; exact ⟨hp, hheadev _⟩
        | found file info =>
          refine ⟨opens.map Event.fsOpen ++
            [Event.serveContent info.Name info.ModTime file.content], ?_, ?_, ?_, ?_, ?_⟩
          · intro k
            rw [hbound k]
            simp only [fileHandlerWithNotFoundHandler.ServeHTTP, hp, if_false, hl]
          · right; exact ⟨file, info, opens, rfl, hfilter opens _ rfl⟩
          · rw [hfilter opens (Event.serveContent info.Name info.ModTime file.content) rfl]
            constructor
            · intro h; simp at h
            · rintro (h | h)
              · exact absurd h hp
              · simp at h
          · intro h; exact absurd h hp
          · intro _; exact ⟨hp, hheadev _⟩

theorem fileHandlerWithNotFoundHandler_dispatch_witness :
    (∃ events,
      (∀ k, fileHandlerWithNotFoundHandler.ServeHTTP { root := docsFS } (2 + k)
        (pathRequest (str "/docs")) = some events) ∧
      (events.filter Event.isAction = [Event.delegate (pathRequest (str "/docs"))] ↔
        ((pathRequest (str "/docs")).Path = str "index.html" ∨
          (lookupContent docsFS 2 (pathRequest (str "/docs")).Path).1 =
            some Lookup.notFound)) ∧
      events.head? = some (Event.fsOpen (normalize (str "/docs")))) ∧
    (∃ events,
      (∀ k, fileHandlerWithNotFoundHandler.ServeHTTP { root := everyDirFS } (0 + k)
        (pathRequest (str "index.html")) = some events) ∧
      events = [Event.delegate (pathRequest (str "index.html"))]) :=
  ⟨match fileHandlerWithNotFoundHandler_dispatch docsFS 2 (pathRequest (str "/docs"))
      (Or.inr (by decide)) with
   | ⟨events, h1, _, h3, _, h5⟩ => ⟨events, h1, h3, (h5 (by decide)).2⟩,
   match fileHandlerWithNotFoundHandler_dispatch everyDirFS 0
      (pathRequest (str "index.html")) (Or.inl rfl) with
   | ⟨events, h1, _, _, h4, _⟩ => ⟨events, h1, h4 rfl⟩⟩

/-- C8: every path that `lookupContent` passes to `root.Open`, in the first
call or in a recursive one, begins with `/`, has no `..`, `.` or empty
segment, contains no `//`, and ends in `/` only when it is `/` itself. -/
theorem lookupContent_opens_normalized (root : FileSystem) (fuel : Nat) (upath p : GoString)
    (hp : p ∈ (lookupContent root fuel upath).2) :
    p.head? = some slash ∧
    (∀ seg ∈ splitSlash p, seg ≠ [dot, dot] ∧ seg ≠ [dot]) ∧
    (p = [slash] ∨ ∀ seg ∈ (splitSlash p).tail, seg ≠ []) ∧
    ¬ [slash, slash] <:+: p ∧
    (p = [slash] ∨ p.getLast? ≠ some slash) :=
  cleanRooted_shape ((lookupContent_chain root fuel upath).1 p hp).1

theorem lookupContent_opens_normalized_witness :
    str "/etc/passwd" ∈ (lookupContent docsFS 3 (str "../..//etc/./passwd/")).2 ∧
    (str "/etc/passwd").head? = some slash ∧
    (∀ seg ∈ splitSlash (str "/etc/passwd"), seg ≠ [dot, dot] ∧ seg ≠ [dot]) ∧
    (str "/etc/passwd" = [slash] ∨ ∀ seg ∈ (splitSlash (str "/etc/passwd")).tail, seg ≠ []) ∧
    ¬ [slash, slash] <:+: str "/etc/passwd" ∧
    (str "/etc/passwd" = [slash] ∨ (str "/etc/passwd").getLast? ≠ some slash) :=
  ⟨by decide,
   lookupContent_opens_normalized docsFS 3 (str "../..//etc/./passwd/") (str "/etc/passwd")
    (by decide)⟩

/-- C9: the handler built on any filesystem sets `Content-Type` to the
configured type and then serves the configured stream with the configured
name and time; two handlers that differ only in their filesystem do the same,
and `root.Open` is never called. -/
theorem fileHandlerWithFallbackContent_ignores_root (root1 root2 : FileSystem)
    (fallback : ReadSeeker) (filename contentType : GoString) (modtime : Nat) (r : Request) :
    fileHandlerWithFallbackContent.ServeHTTP
        { root := root1, fallback := fallback, filename := filename,
          contentType := contentType, modtime := modtime } r =
      fileHandlerWithFallbackContent.ServeHTTP
        { root := root2, fallback := fallback, filename := filename,
          contentType := contentType, modtime := modtime } r ∧
    fileHandlerWithFallbackContent.ServeHTTP
        { root := root1, fallback := fallback, filename := filename,
          contentType := contentType, modtime := modtime } r =
      [Event.setHeader (str "Content-Type") contentType,
       Event.serveContent filename modtime fallback] ∧
    ∀ path, Event.fsOpen path ∉ fileHandlerWithFallbackContent.ServeHTTP
        { root := root1, fallback := fallback, filename := filename,
          contentType := contentType, modtime := modtime } r := by
  refine ⟨rfl, rfl, ?_⟩
  intro path h
  simp [fileHandlerWithFallbackContent.ServeHTTP] at h

/-- C10: on a filesystem whose directories all lie in a finite set of `N`
paths, `lookupContent` returns the same result for every bound above `N`,
after at most `N + 1` calls of `Open`; the opened paths grow strictly in
length, so none is opened twice.  On the filesystem where every path opens
as a directory the call never returns: every bound is used up. -/
theorem lookupContent_terminates (root : FileSystem) (dirs : Finset GoString)
    (hdirs : ∀ p, opensAsDir root p = true → p ∈ dirs) (upath : GoString) :
    (∃ res opens,
      (∀ fuel, dirs.card < fuel → lookupContent root fuel upath = (some res, opens)) ∧
      opens.length ≤ dirs.card + 1 ∧
      opens.Pairwise (fun a b => a.length < b.length) ∧
      opens.Nodup) ∧
    (∀ fuel v, (lookupContent everyDirFS fuel v).1 = none ∧
      (lookupContent everyDirFS fuel v).2.length = fuel) := by
  refine ⟨?_, lookupContent_everyDirFS⟩
  obtain ⟨hsome, hlen⟩ :=
    lookupContent_bound root dirs hdirs (dirs.card + 1) upath (Nat.lt_succ_self _)
  obtain ⟨_, hpair, _, _⟩ := lookupContent_chain root (dirs.card + 1) upath
  cases hl : lookupContent root (dirs.card + 1) upath with
  | mk res opens =>
    rw [hl] at hsome hlen hpair
    cases res with
    | none => exact absurd rfl hsome
    | some res =>
      refine ⟨res, opens, ?_, hlen, hpair, ?_⟩
      · intro fuel hfuel
        obtain ⟨k, rfl⟩ : ∃ k, fuel = dirs.card + 1 + k := ⟨fuel - (dirs.card + 1), by omega⟩
        rw [lookupContent_mono root (dirs.card + 1) upath (by rw [hl]; simp) k, hl]
      · exact hpair.imp (fun {a b} hab heq => by rw [heq] at hab; omega)

theorem lookupContent_terminates_witness :
    ∃ res opens,
      (∀ fuel, ({str "/docs"} : Finset GoString).card < fuel →
        lookupContent docsFS fuel (str "/docs") = (some res, opens)) ∧
      opens.length ≤ ({str "/docs"} : Finset GoString).card + 1 ∧
      opens.Pairwise (fun a b => a.length < b.length) ∧
      opens.Nodup :=
  (lookupContent_terminates docsFS {str "/docs"} opensAsDir_docsFS (str "/docs")).1

end Routing
